import Mathlib

/-!
Verification of the sharp-edge immersed-boundary Navier-Stokes prototypes.

The development shallowly embeds, over exact rationals, the row-rewrite
algorithm of the two prototypes:
- DirectSteadyNavierStokes::sharp_edge_V2(initial_step) from
  prototypes/gls_navier_stokes_sharpe_edge/gls_navier_stokes_sharp_edge.cc
  (the version that scales rows by the pre-override diagonal, here "gls"), and
- DirectSteadyNavierStokes::sharp_edge_V2() from
  prototypes/direct_gls_navier_stokes_sharpe_edge/directSteadyNS.cpp
  (the version that divides by the squared distance, here "direct"),
together with the GLS assembly scatter, the Newton driver loop, the two
backtracking line searches, the stabilization parameter of assemble, and the
traction integrator's sampling step.

External deal.II collaborators (support-point map, Tensor::norm,
transform_real_to_unit_cell, distance_to_unit_cell, shape_value,
find_active_cell_around_point, the constraint machinery) are modelled as
parameters of context structures; all arithmetic the C++ performs on their
results is embedded literally.  The prototypes run in dim = 2, so points are
pairs of rationals and dofs_per_cell = (dim+1)*4 = 12.
-/

namespace SharpIB

attribute [local semireducible] Rat.sub Rat.add Rat.mul Rat.inv

/-- A point or tensor of rank one in the plane (deal.II Point<2> / Tensor<1,2>). -/
structure Vec2 where
  x : ℚ
  y : ℚ
deriving DecidableEq

instance : Inhabited Vec2 := ⟨⟨0, 0⟩⟩

instance : Add Vec2 := ⟨fun a b => ⟨a.x + b.x, a.y + b.y⟩⟩

instance : Sub Vec2 := ⟨fun a b => ⟨a.x - b.x, a.y - b.y⟩⟩

instance : SMul ℚ Vec2 := ⟨fun c v => ⟨c * v.x, c * v.y⟩⟩

/-- Division of a tensor by a scalar, componentwise (deal.II Tensor / double). -/
def Vec2.sdiv (v : Vec2) (c : ℚ) : Vec2 := ⟨v.x / c, v.y / c⟩

/-- The assembled linear system: sparse matrix and right-hand side, viewed
entrywise.  Entries outside the sparsity pattern are 0, so a total function
is an adequate view for set/add/read operations. -/
structure LinSys where
  mat : ℕ → ℕ → ℚ
  rhs : ℕ → ℚ

/-- system_matrix.set(i, j, v). -/
def matSet (s : LinSys) (i j : ℕ) (v : ℚ) : LinSys :=
  { s with mat := fun a b => if a = i ∧ b = j then v else s.mat a b }

/-- system_matrix.add(i, j, v). -/
def matAdd (s : LinSys) (i j : ℕ) (v : ℚ) : LinSys :=
  matSet s i j (s.mat i j + v)

/-- system_rhs(i) = v. -/
def rhsSet (s : LinSys) (i : ℕ) (v : ℚ) : LinSys :=
  { s with rhs := fun a => if a = i then v else s.rhs a }

/-- An active cell: its global dof indices (cell->get_dof_indices) and the
global indices of its vertices (cell->vertex_index). -/
structure Cell where
  dofs : List ℕ
  verts : List ℕ
deriving DecidableEq

instance : Inhabited Cell := ⟨⟨[], []⟩⟩

/-- The index stride used by both prototypes to walk the local dofs of one
velocity component k: l starts at k and advances by `l < (dim+1)*4 ? dim+1 :
dim` while `l < len`.  In 2D this visits k, k+3, k+6, k+9 for len = 12. -/
def strideAux (len : ℕ) : ℕ → ℕ → List ℕ
  | 0, _ => []
  | fuel + 1, n =>
    if n < len then n :: strideAux len fuel (if n < 12 then n + 3 else n + 2)
    else []

/-- The fuel of strideAux only bounds the iteration count: the index advances
by at least 2 each pass, so len passes always suffice, and the loop guard is
checked exactly as in the source. -/
def strideIdx (len n : ℕ) : List ℕ := strideAux len len n

/-- External collaborators and run parameters of the gls prototype's
sharp_edge_V2, as one context. -/
structure IBCtx where
  support : ℕ → Vec2
  nrm : Vec2 → ℚ
  cells : List Cell
  vertCells : ℕ → List Cell
  shape : ℕ → Vec2 → ℚ
  toUnit : Cell → Vec2 → Option Vec2
  distUnit : Vec2 → ℚ
  center : Vec2
  radius : ℚ
  radius2 : ℚ
  couette : Bool

/-- The unit vector (x - c)/‖x - c‖ the prototypes form from a support point. -/
def unitVec (ctx : IBCtx) (xl : Vec2) : Vec2 :=
  (xl - ctx.center).sdiv (ctx.nrm (xl - ctx.center))

/-- vect_dist of the gls small-circle branch:
(x - c) - radius·(x - c)/‖x - c‖. -/
def glsVectDist (ctx : IBCtx) (xl : Vec2) : Vec2 :=
  (xl - ctx.center) - ctx.radius • unitVec ctx xl

/-- second_point of the gls small-circle branch: x + vect_dist. -/
def glsSecondPoint (ctx : IBCtx) (xl : Vec2) : Vec2 :=
  xl + glsVectDist ctx xl

/-- The normal projection of a support point onto the small circle,
c + radius·(x - c)/‖x - c‖ (the x_proj of the specification). -/
def glsProj (ctx : IBCtx) (xl : Vec2) : Vec2 :=
  ctx.center + ctx.radius • unitVec ctx xl

/-- vect_dist of the gls large-circle branch.  The source omits the
`- center_immersed` of the first term: x - radius_2·(x - c)/‖x - c‖. -/
def glsVectDistL (ctx : IBCtx) (xl : Vec2) : Vec2 :=
  xl - ctx.radius2 • unitVec ctx xl

/-- The candidate search of sharp_edge_V2: the index of the first neighbor
cell whose inverse mapping of p succeeds and lands inside the unit cell;
cell_found stays 0 when none does.  A toUnit result of none models
ExcTransformationFailed, which the catch clause skips. -/
def findCell (ctx : IBCtx) (neigh : List Cell) (p : Vec2) : ℕ :=
  match (List.range neigh.length).find? (fun idx =>
    match ctx.toUnit (neigh.getD idx default) p with
    | none => false
    | some ξ => ctx.distUnit ξ = 0) with
  | some idx => idx
  | none => 0

/-- The stencil cell (cell_2): the neighbor selected by the candidate search. -/
def stencilOf (ctx : IBCtx) (neigh : List Cell) (p : Vec2) : Cell :=
  neigh.getD (findCell ctx neigh p) default

/-- The reference-cell coordinate of the second point inside the stencil cell
(second_point_v).  If the inverse mapping throws here the C++ run aborts;
the model returns the origin in that unreachable-by-claims case. -/
def xiOf (ctx : IBCtx) (neigh : List Cell) (p : Vec2) : Vec2 :=
  (ctx.toUnit (stencilOf ctx neigh p) p).getD default

/-- The global dof index the row rewrite targets (local_dof_indices[l]). -/
def dofAt (cell : Cell) (l : ℕ) : ℕ :=
  cell.dofs.getD l 0

/-- The neighbor cells of the vertex carrying local dof l
(vertices_to_cell[cell->vertex_index(l / (dim+1))]). -/
def glsNeigh (ctx : IBCtx) (cell : Cell) (l : ℕ) : List Cell :=
  ctx.vertCells (cell.verts.getD (l / 3) 0)

/-- Row clearing of the gls rewrite: for every neighbor cell, zero the
entries of row i at that cell's dofs (the o loop is bounded by the stencil
cell's dof count, as in the source). -/
def zeroRow (i : ℕ) (neigh : List Cell) (len : ℕ) (s : LinSys) : LinSys :=
  neigh.foldl (fun t c3 =>
    (List.range len).foldl (fun u o => matSet u i (c3.dofs.getD o 0) 0) t) s

/-- The interpolation writes of the rewrite: for each stride position n,
add w n to row i at column col n. -/
def addLoop (i : ℕ) (col : ℕ → ℕ) (w : ℕ → ℚ) (L : List ℕ) (s : LinSys) : LinSys :=
  L.foldl (fun t n => matAdd t i (col n) (w n)) s

/-- The second point computed for local dof l of a cut cell. -/
def glsSP (ctx : IBCtx) (cell : Cell) (l : ℕ) : Vec2 :=
  glsSecondPoint ctx (ctx.support (dofAt cell l))

/-- The stencil cell (cell_2) selected for local dof l. -/
def glsC2 (ctx : IBCtx) (cell : Cell) (l : ℕ) : Cell :=
  stencilOf ctx (glsNeigh ctx cell l) (glsSP ctx cell l)

/-- The reference coordinate ξ* of the second point for local dof l. -/
def glsXiC (ctx : IBCtx) (cell : Cell) (l : ℕ) : Vec2 :=
  xiOf ctx (glsNeigh ctx cell l) (glsSP ctx cell l)

/-- vect_dist.norm() for local dof l: the distance d from the support point
to its projection on the immersed surface. -/
def glsD (ctx : IBCtx) (cell : Cell) (l : ℕ) : ℚ :=
  ctx.nrm (glsVectDist ctx (ctx.support (dofAt cell l)))

/-- The global column indices the interpolation loop writes for component k:
the stencil cell's dofs at the stride positions. -/
def glsCols (ctx : IBCtx) (cell : Cell) (l k : ℕ) : List ℕ :=
  (strideIdx (glsC2 ctx cell l).dofs.length k).map
    (fun n => (glsC2 ctx cell l).dofs.getD n 0)

/-- The couette boundary datum g_k the gls prototype evaluates from the unit
vector of the support point: g = (û_y, -û_x). -/
def glsG (ctx : IBCtx) (cell : Cell) (l k : ℕ) : ℚ :=
  if k = 0 then (unitVec ctx (ctx.support (dofAt cell l))).y
  else -(unitVec ctx (ctx.support (dofAt cell l))).x

/-- One row rewrite of the gls sharp_edge_V2 small-circle branch, for the
velocity component k dof at local index l of a cut cell
(gls_navier_stokes_sharp_edge.cc, the body of the small-circle while loop). -/
def glsRewriteDof (ctx : IBCtx) (initial : Bool) (cell : Cell) (k l : ℕ)
    (s : LinSys) : LinSys :=
  let i := dofAt cell l
  let xl := ctx.support i
  let α := s.mat i i
  let s1 := zeroRow i (glsNeigh ctx cell l) (glsC2 ctx cell l).dofs.length s
  let s2 :=
    if glsD ctx cell l ≠ 0 then
      addLoop i (fun n => (glsC2 ctx cell l).dofs.getD n 0)
        (fun n => ctx.shape n (glsXiC ctx cell l) / (1 / α))
        (strideIdx (glsC2 ctx cell l).dofs.length k) (matSet s1 i i (-2 / (1 / α)))
    else
      matSet s1 i i α
  let s3 :=
    if ctx.couette && initial then
      if k = 0 then rhsSet s2 i (1 * (unitVec ctx xl).y / (1 / α))
      else rhsSet s2 i (-1 * (unitVec ctx xl).x / (1 / α))
    else rhsSet s2 i 0
  if ctx.couette = false then rhsSet s3 i 0 else s3

/-- One row rewrite of the gls sharp_edge_V2 large-circle branch (no distance
guard, rhs always set to 0). -/
def glsRewriteDofL (ctx : IBCtx) (cell : Cell) (k l : ℕ) (s : LinSys) : LinSys :=
  let i := dofAt cell l
  let xl := ctx.support i
  let neigh := glsNeigh ctx cell l
  let sp := xl + glsVectDistL ctx xl
  let c2 := stencilOf ctx neigh sp
  let ξ := xiOf ctx neigh sp
  let α := s.mat i i
  let s1 := zeroRow i neigh c2.dofs.length s
  let s2 :=
    addLoop i (fun n => c2.dofs.getD n 0) (fun n => ctx.shape n ξ / (1 / α))
      (strideIdx c2.dofs.length k) (matSet s1 i i (-2 / (1 / α)))
  rhsSet s2 i 0

/-- How many dofs of the cell lie within distance radius of the center
(count_small; count_large uses radius_2). -/
def countIn (ctx : IBCtx) (cell : Cell) (r : ℚ) : ℕ :=
  (cell.dofs.filter (fun d => ctx.nrm (ctx.support d - ctx.center) ≤ r)).length

/-- The small-circle pass over one cut cell: k runs to dim+1 (= 3) and only
velocity components k < dim (= 2) are rewritten, each along its dof stride. -/
def glsSmall (ctx : IBCtx) (initial : Bool) (cell : Cell) (s : LinSys) : LinSys :=
  (List.range 3).foldl (fun t k =>
    if k < 2 then
      (strideIdx cell.dofs.length k).foldl
        (fun u l => glsRewriteDof ctx initial cell k l u) t
    else t) s

/-- The large-circle pass over one cut cell. -/
def glsLarge (ctx : IBCtx) (cell : Cell) (s : LinSys) : LinSys :=
  (List.range 3).foldl (fun t k =>
    if k < 2 then
      (strideIdx cell.dofs.length k).foldl
        (fun u l => glsRewriteDofL ctx cell k l u) t
    else t) s

/-- Per-cell step of sharp_edge_V2: classify the cell against both circles
(count_large is forced to 0 unless the couette case) and run the cut
branches. -/
def glsCellStep (ctx : IBCtx) (initial : Bool) (s : LinSys) (cell : Cell) : LinSys :=
  let cs := countIn ctx cell ctx.radius
  let cl := if ctx.couette = false then 0 else countIn ctx cell ctx.radius2
  let s' := if cs ≠ 0 ∧ cs ≠ cell.dofs.length then glsSmall ctx initial cell s else s
  if cl ≠ 0 ∧ cl ≠ cell.dofs.length then glsLarge ctx cell s' else s'

/-- The full gls sharp_edge_V2(initial_step): iterate the per-cell step over
all active cells. -/
def sharpEdgeV2 (ctx : IBCtx) (initial : Bool) (s : LinSys) : LinSys :=
  ctx.cells.foldl (glsCellStep ctx initial) s

/-! ### The direct prototype's sharp_edge_V2 (directSteadyNS.cpp)

Its sharp_edge_V2 takes no argument: the geometry, the couette flag and the
boundary data are literals inside the function, and the second stencil point
is located with GridTools::find_active_cell_around_point. -/

/-- External collaborators of directSteadyNS.cpp's sharp_edge_V2.  std::sqrt
on doubles is modelled as the oracle sqrtQ. -/
structure DCtx where
  support : ℕ → Vec2
  nrm : Vec2 → ℚ
  shape : ℕ → Vec2 → ℚ
  toUnit : Cell → Vec2 → Option Vec2
  findAround : Vec2 → Cell
  sqrtQ : ℚ → ℚ
  nDofs : ℕ

/-- radius = 0.21 hardcoded in directSteadyNS.cpp's sharp_edge_V2. -/
def directRadius : ℚ := 21 / 100

/-- center_immersed = (0, 0) hardcoded in directSteadyNS.cpp's sharp_edge_V2. -/
def directCenter : Vec2 := ⟨0, 0⟩

/-- couette = true hardcoded in directSteadyNS.cpp's sharp_edge_V2. -/
def directCouette : Bool := true

/-- (x - c)/‖x - c‖ as the direct prototype forms it. -/
def directUnit (ctx : DCtx) (xl : Vec2) : Vec2 :=
  (xl - directCenter).sdiv (ctx.nrm (xl - directCenter))

/-- vect_dist of the direct small-circle rewrite.  The source omits
`- center_immersed` from the first term: x - radius·(x - c)/‖x - c‖
(harmless there because the center is the origin). -/
def directVectDist (ctx : DCtx) (xl : Vec2) : Vec2 :=
  xl - directRadius • directUnit ctx xl

/-- dist = sqrt(vect_dist[1]² + vect_dist[0]²). -/
def directDist (ctx : DCtx) (xl : Vec2) : ℚ :=
  ctx.sqrtQ ((directVectDist ctx xl).y * (directVectDist ctx xl).y +
    (directVectDist ctx xl).x * (directVectDist ctx xl).x)

/-- second_point of the direct rewrite: x + vect_dist. -/
def directSecondPoint (ctx : DCtx) (xl : Vec2) : Vec2 :=
  xl + directVectDist ctx xl

/-- The projection point of the spec for the direct geometry,
c + radius·(x - c)/‖x - c‖. -/
def directProj (ctx : DCtx) (xl : Vec2) : Vec2 :=
  directCenter + directRadius • directUnit ctx xl

/-- The cell containing the second point
(GridTools::find_active_cell_around_point). -/
def directStencilCell (ctx : DCtx) (xl : Vec2) : Cell :=
  ctx.findAround (directSecondPoint ctx xl)

/-- second_point_v of the direct rewrite. -/
def directXi (ctx : DCtx) (xl : Vec2) : Vec2 :=
  (ctx.toUnit (directStencilCell ctx xl) (directSecondPoint ctx xl)).getD default

/-- One row rewrite of directSteadyNS.cpp's sharp_edge_V2 small-circle branch
(lines 943-997): clear the whole row, write -2/dist² on the diagonal, add
shape_value(n)/dist² at the stencil cell's component-k dofs, and set the rhs
to the couette boundary value divided by dist² (couette is literally true
there, and the function has no initial-step argument). -/
def directRewriteDof (ctx : DCtx) (cell : Cell) (k l : ℕ) (s : LinSys) : LinSys :=
  let i := dofAt cell l
  let xl := ctx.support i
  let dist := directDist ctx xl
  let c2 := directStencilCell ctx xl
  let ξ := directXi ctx xl
  let s1 := (List.range ctx.nDofs).foldl (fun t m => matSet t i m 0) s
  let s2 := matSet s1 i i (-2 / (dist * dist))
  let s3 :=
    addLoop i (fun n => c2.dofs.getD n 0) (fun n => ctx.shape n ξ / (dist * dist))
      (strideIdx c2.dofs.length k) s2
  let s4 :=
    if directCouette then
      if k = 0 then rhsSet s3 i (1 * (directUnit ctx xl).y / (dist * dist))
      else rhsSet s3 i (-1 * (directUnit ctx xl).x / (dist * dist))
    else s3
  if directCouette = false then rhsSet s4 i 0 else s4

/-- The global column indices the direct rewrite's interpolation loop writes
for component k. -/
def dCols (ctx : DCtx) (cell : Cell) (l k : ℕ) : List ℕ :=
  (strideIdx (directStencilCell ctx (ctx.support (dofAt cell l))).dofs.length k).map
    (fun n => (directStencilCell ctx (ctx.support (dofAt cell l))).dofs.getD n 0)

/-- The couette boundary datum g_k evaluated by the direct rewrite. -/
def dG (ctx : DCtx) (cell : Cell) (l k : ℕ) : ℚ :=
  if k = 0 then (directUnit ctx (ctx.support (dofAt cell l))).y
  else -(directUnit ctx (ctx.support (dofAt cell l))).x

/-! ### The assemble routine's scatter (gls prototype, assemble(initial, flag))

The per-cell local integrals are external data of the model (they are read
from fe_values and the current iterate, and do not depend on the
assemble_matrix flag); the embedding keeps the exact branch structure of the
source: the matrix is zeroed and written only when assemble_matrix holds. -/

/-- A constraint line: distribute_local_to_global resolves the local dof's row
into weighted global rows (an unconstrained dof resolves to itself with
weight 1). -/
structure ACtx where
  cells : List Cell
  localMat : Cell → ℕ → ℕ → ℚ
  localRhs : Cell → ℕ → ℚ
  resolveN : ℕ → List (ℕ × ℚ)
  resolveZ : ℕ → List (ℕ × ℚ)

/-- constraints.distribute_local_to_global(local_rhs, dofs, system_rhs):
writes only the global right-hand side. -/
def scatterRhs (resolve : ℕ → List (ℕ × ℚ)) (cell : Cell) (lr : ℕ → ℚ)
    (s : LinSys) : LinSys :=
  (List.range cell.dofs.length).foldl (fun t li =>
    (resolve (cell.dofs.getD li 0)).foldl (fun u jc =>
      { u with rhs := fun a => if a = jc.1 then u.rhs a + jc.2 * lr li else u.rhs a }) t) s

/-- constraints.distribute_local_to_global(local_matrix, local_rhs, dofs,
system_matrix, system_rhs): writes matrix and right-hand side. -/
def scatterBoth (resolve : ℕ → List (ℕ × ℚ)) (cell : Cell) (lm : ℕ → ℕ → ℚ)
    (lr : ℕ → ℚ) (s : LinSys) : LinSys :=
  (List.range cell.dofs.length).foldl (fun t li =>
    (resolve (cell.dofs.getD li 0)).foldl (fun u jc =>
      let u1 := (List.range cell.dofs.length).foldl (fun w lj =>
        matAdd w jc.1 (cell.dofs.getD lj 0) (jc.2 * lm li lj)) u
      { u1 with rhs := fun a => if a = jc.1 then u1.rhs a + jc.2 * lr li else u1.rhs a }) t) s

/-- assemble(initial_step, assemble_matrix) of the gls prototype: zero the
matrix only when assembling it, zero the rhs, then scatter every cell's local
contributions with the constraint set selected by initial_step. -/
def assembleM (ctx : ACtx) (initial buildMat : Bool) (s : LinSys) : LinSys :=
  let s0 := if buildMat then { s with mat := fun _ _ => 0 } else s
  let s1 := { s0 with rhs := fun _ => 0 }
  ctx.cells.foldl (fun t c =>
    let used := if initial then ctx.resolveN else ctx.resolveZ
    if buildMat then scatterBoth used c (ctx.localMat c) (ctx.localRhs c) t
    else scatterRhs used c (ctx.localRhs c) t) s1

/-! ### The Newton driver loop (newton_iteration in both prototypes)

The two branch bodies (assemble, override, solve, line search) are oracles;
the control flow - the while guard, the first_step flag, the residual
bookkeeping and the iteration counter - is embedded exactly. -/

/-- Mutable state of newton_iteration. -/
structure NState where
  first : Bool
  res : ℚ
  last : ℚ
  sol : ℕ → ℚ
  outer : ℕ

/-- The two loop bodies as oracles: the first-step body returns the new
present_solution and its residual norm; the other body returns the new
present_solution, current_res and last_res after the line search. -/
structure NCtx where
  stepFirst : (ℕ → ℚ) → (ℕ → ℚ) × ℚ
  stepElse : (ℕ → ℚ) → ℚ → (ℕ → ℚ) × ℚ × ℚ

/-- One pass of the while body: both branches end with first_step false and
outer_iteration incremented. -/
def newtonBody (ctx : NCtx) (st : NState) : NState :=
  if st.first then
    let pr := ctx.stepFirst st.sol
    { first := false, res := pr.2, last := pr.2, sol := pr.1, outer := st.outer + 1 }
  else
    let pr := ctx.stepElse st.sol st.last
    { first := false, res := pr.2.1, last := pr.2.2, sol := pr.1, outer := st.outer + 1 }

/-- The while loop `(first_step || current_res > tolerance) &&
outer_iteration < max_iteration`.  The fuel argument is only a structural
bound: the guard keeps outer_iteration below maxIt, so fuel = maxIt - outer
never runs out before the guard fails. -/
def newtonLoop (ctx : NCtx) (tol : ℚ) (maxIt : ℕ) : ℕ → NState → NState
  | 0, st => st
  | f + 1, st =>
    if (st.first || st.res > tol) && st.outer < maxIt then
      newtonLoop ctx tol maxIt f (newtonBody ctx st)
    else st

/-- newton_iteration(tolerance, max_iteration, is_initial_step): last_res and
current_res start at 1.0 and outer_iteration at 0. -/
def newtonIteration (ctx : NCtx) (tol : ℚ) (maxIt : ℕ) (isInitial : Bool)
    (sol0 : ℕ → ℚ) : NState :=
  newtonLoop ctx tol maxIt maxIt
    { first := isInitial, res := 1, last := 1, sol := sol0, outer := 0 }

/-! ### The backtracking line searches

gls prototype (gls_navier_stokes_sharp_edge.cc, lines 1416-1445): inside the
alpha loop, evaluation_point is rebuilt from present_solution, but
present_solution is itself overwritten with the trial before the acceptance
test, and last_res is overwritten with each rejected trial's residual.
direct prototype (directSteadyNS.cpp, lines 1327-1342): the acceptance test
is commented out, so every alpha is tried and the last trial is kept. -/

/-- present_solution + alpha * newton_update, entrywise (BlockVector::add). -/
def vAdd (p : ℕ → ℚ) (a : ℚ) (d : ℕ → ℚ) : ℕ → ℚ := fun x => p x + a * d x

/-- The residual oracle (assemble_rhs, then in the gls prototype also
sharp_edge_V2, then l2_norm) and the constraint distribution. -/
structure LSCtx where
  resAt : (ℕ → ℚ) → ℚ
  distribute : (ℕ → ℚ) → ℕ → ℚ

/-- present_solution, current_res and last_res during the line search. -/
structure LSState where
  present : ℕ → ℚ
  cur : ℚ
  last : ℚ

/-- The gls alpha loop.  Fuel is structural; the guard alpha > 1e-3 stops the
recursion after the trial at alpha = 2⁻⁹. -/
def lsGls (ctx : LSCtx) (δ : ℕ → ℚ) : ℕ → ℚ → LSState → LSState
  | 0, _, st => st
  | f + 1, α, st =>
    if α > 1 / 1000 then
      let ev := ctx.distribute (vAdd st.present α δ)
      let r := ctx.resAt ev
      if r < st.last then { present := ev, cur := r, last := st.last }
      else lsGls ctx δ f (α / 2) { present := ev, cur := r, last := r }
    else st

/-- The gls line search entry: alpha starts at 1.0 and present_solution and
last_res enter from the surrounding Newton step. -/
def glsLineSearch (ctx : LSCtx) (δ p : ℕ → ℚ) (lastRes : ℚ) : LSState :=
  lsGls ctx δ 20 1 { present := p, cur := lastRes, last := lastRes }

/-- The trial iterates the gls loop actually visits: each trial adds its alpha
times the update to the previous trial, not to the Newton iterate. -/
def glsTrial (ctx : LSCtx) (δ p : ℕ → ℚ) : ℕ → ℕ → ℚ
  | 0 => ctx.distribute (vAdd p 1 δ)
  | j + 1 => ctx.distribute (vAdd (glsTrial ctx δ p j) ((1 / 2 : ℚ) ^ (j + 1)) δ)

/-- The direct prototype's alpha loop: no acceptance test; evaluation_point is
rebuilt from the unchanged present_solution each time, and the last trial is
what remains. -/
def lsDirect (ctx : LSCtx) (δ p : ℕ → ℚ) : ℕ → ℚ → (ℕ → ℚ) → (ℕ → ℚ)
  | 0, _, ev => ev
  | f + 1, α, ev =>
    if α > 1 / 1000 then
      lsDirect ctx δ p f (α / 2) (ctx.distribute (vAdd p α δ))
    else ev

/-- The direct line search entry; the returned vector is the
evaluation_point committed to present_solution after the loop. -/
def directLineSearch (ctx : LSCtx) (δ p : ℕ → ℚ) : ℕ → ℚ :=
  lsDirect ctx δ p 20 1 p

/-! ### The stabilization parameter and the traction sampling step

These two involve std::sqrt and a cube root on doubles; they are embedded
over the reals. -/

/-- The element size of assemble in 2D: h = sqrt(4·measure/pi). -/
noncomputable def hElem2d (A : ℝ) : ℝ := Real.sqrt (4 * A / Real.pi)

/-- The element size of assemble in 3D: h = (6·measure/pi)^(1/3). -/
noncomputable def hElem3d (V : ℝ) : ℝ := (6 * V / Real.pi) ^ ((1 : ℝ) / 3)

/-- The stabilization parameter exactly as assemble computes it:
u_mag = max(‖v‖, 1e-12), tau = 1/sqrt((2·u_mag/h)² + 9·(4ν/(h·h))²). -/
noncomputable def tauAssemble (vnorm h visc : ℝ) : ℝ :=
  1 / Real.sqrt ((2 * max vnorm 1e-12 / h) ^ 2 + 9 * (4 * visc / (h * h)) ^ 2)

/-- The claim's formula for tau, written from the specification's words:
τ = 1/√((2‖v‖/h)² + 9·(4ν/h²)²) with ‖v‖ floored at 10⁻¹². -/
noncomputable def tauClaimed (vnorm h visc : ℝ) : ℝ :=
  1 / Real.sqrt ((2 * max vnorm 1e-12 / h) ^ 2 + 9 * (4 * visc / h ^ 2) ^ 2)

/-- The first assignment to dr in the gls prototype's torque():
(m·m)/sqrt(2·(m·m)) for m the minimal cell diameter. -/
noncomputable def drTorqueBase (m : ℝ) : ℝ := m * m / Real.sqrt (2 * (m * m))

/-- The sampling step the gls torque() actually uses: dr = dr*2 follows
immediately. -/
noncomputable def drTorque (m : ℝ) : ℝ := drTorqueBase m * 2

/-! ### Concrete model instances

Small but geometrically honest runs used to evaluate the embeddings: a
single quadrilateral cell whose vertices lie on the coordinate axes (a
rhombus), so every Tensor::norm the algorithm takes is of an axis-aligned
vector and hence rational, and the genuine Q1 shape functions of the
reference square. -/

/-- The Q1 hat function of reference-square vertex v (deal.II vertex order
(0,0), (1,0), (0,1), (1,1)). -/
def q1hat (v : ℕ) (p : Vec2) : ℚ :=
  match v with
  | 0 => (1 - p.x) * (1 - p.y)
  | 1 => p.x * (1 - p.y)
  | 2 => (1 - p.x) * p.y
  | _ => p.x * p.y

/-- fe.shape_value for the Q1/Q1 system element: local dof n belongs to
vertex n / 3 and every basis function's only nonzero component is that
vertex's hat. -/
def shapeQ1 (n : ℕ) (p : Vec2) : ℚ := q1hat (n / 3) p

/-- The Euclidean norm restricted to axis-aligned vectors (all vectors normed
in the concrete runs lie on an axis, where the Euclidean norm is rational). -/
def axisNorm (v : Vec2) : ℚ :=
  if v.x = 0 then |v.y| else if v.y = 0 then |v.x| else 0

/-- GeometryInfo::distance_to_unit_cell for the unit square: zero exactly on
[0,1]². -/
def unitSqDist (p : Vec2) : ℚ :=
  max 0 (max (max (-p.x) (p.x - 1)) (max (-p.y) (p.y - 1)))

/-- Support points of the rhombus cell: vertices (3,0), (0,4), (-3,0),
(0,-4), three dofs (vx, vy, p) per vertex. -/
def rhombusSupport (d : ℕ) : Vec2 :=
  match d / 3 with
  | 0 => ⟨3, 0⟩
  | 1 => ⟨0, 4⟩
  | 2 => ⟨-3, 0⟩
  | _ => ⟨0, -4⟩

/-- The rhombus cell: global dofs 0..11, global vertices 0..3. -/
def cellA : Cell := ⟨List.range 12, [0, 1, 2, 3]⟩

/-- A second cell holding global dofs 12..23, used as the stencil cell in the
two-cell instance. -/
def cellB : Cell := ⟨(List.range 12).map (· + 12), [4, 5, 6, 7]⟩

/-- Single-cell context: circle of radius 7/2 about the origin cuts the
rhombus (vertices at distances 3 and 4); couette off. -/
def ctxR : IBCtx :=
  { support := rhombusSupport
    nrm := axisNorm
    cells := [cellA]
    vertCells := fun _ => [cellA]
    shape := shapeQ1
    toUnit := fun _ _ => some ⟨1 / 4, 1 / 4⟩
    distUnit := unitSqDist
    center := ⟨0, 0⟩
    radius := 7 / 2
    radius2 := 100
    couette := false }

/-- The same geometry with the couette boundary data switched on. -/
def ctxC : IBCtx := { ctxR with couette := true }

/-- The same geometry with radius 3, putting the vertex (3,0) exactly on the
immersed circle (distance 0). -/
def ctxZ : IBCtx := { ctxC with radius := 3 }

/-- Inverse mapping of the two-cell instance: the second point lies in cellB
(reference coordinate (1/4,1/4)); for cellA the mapping lands outside the
unit square. -/
def toUnit2 : Cell → Vec2 → Option Vec2 :=
  fun c _ => if c = cellB then some ⟨1 / 4, 1 / 4⟩ else some ⟨2, 2⟩

/-- Two-cell context: the vertex neighbors are cellA and cellB and the
candidate search selects cellB, so the stencil columns are disjoint from the
rewritten row. -/
def ctx2 : IBCtx := { ctxR with vertCells := fun _ => [cellA, cellB], toUnit := toUnit2 }

/-- Square-root oracle for the direct-prototype runs, honest on the two
inputs they produce. -/
def sqrtTable (q : ℚ) : ℚ :=
  if q = 441 / 10000 then 21 / 100 else 0

/-- Support points for the direct-prototype runs: dof 0 at twice the hardcoded
radius from the center (distance 21/100 from the circle), dof 1 exactly on
the circle. -/
def directSupport (d : ℕ) : Vec2 :=
  if d = 0 then ⟨21 / 50, 0⟩ else if d = 1 then ⟨21 / 100, 0⟩ else ⟨1, 0⟩

/-- Context for the direct prototype's rewrite: 24 dofs, stencil cell cellB. -/
def dctx : DCtx :=
  { support := directSupport
    nrm := axisNorm
    shape := shapeQ1
    toUnit := fun _ _ => some ⟨1 / 4, 1 / 4⟩
    findAround := fun _ => cellB
    sqrtQ := sqrtTable
    nDofs := 24 }

/-- The identity-matrix system every concrete run starts from. -/
def s0 : LinSys :=
  { mat := fun i j => if i = j then 1 else 0, rhs := fun _ => 0 }

/-- A residual oracle that never improves (every trial residual is 5). -/
def lsFlat : LSCtx := { resAt := fun _ => 5, distribute := id }

/-- A residual oracle that always improves (every trial residual is 0). -/
def lsZero : LSCtx := { resAt := fun _ => 0, distribute := id }

/-- The zero iterate. -/
def pZero : ℕ → ℚ := fun _ => 0

/-- The all-ones Newton update. -/
def dOne : ℕ → ℚ := fun _ => 1

/-! ## Lemmas about the elementary updates -/

theorem matSet_rhs (s : LinSys) (i j : ℕ) (v : ℚ) : (matSet s i j v).rhs = s.rhs := rfl

theorem rhsSet_mat (s : LinSys) (i : ℕ) (v : ℚ) : (rhsSet s i v).mat = s.mat := rfl

theorem matSet_mat (s : LinSys) (i j a b : ℕ) (v : ℚ) :
    (matSet s i j v).mat a b = if a = i ∧ b = j then v else s.mat a b := rfl

theorem rhsSet_rhs (s : LinSys) (i a : ℕ) (v : ℚ) :
    (rhsSet s i v).rhs a = if a = i then v else s.rhs a := rfl

theorem matAdd_mat (s : LinSys) (i j a b : ℕ) (v : ℚ) :
    (matAdd s i j v).mat a b = if a = i ∧ b = j then s.mat i j + v else s.mat a b := rfl

theorem matAdd_rhs (s : LinSys) (i j : ℕ) (v : ℚ) : (matAdd s i j v).rhs = s.rhs := rfl

/-- A fold of zero-writes into row i: an entry is zero when some position hits
its column, untouched otherwise. -/
theorem zeroList_mat (i : ℕ) (f : ℕ → ℕ) (L : List ℕ) (s : LinSys) (a b : ℕ) :
    ((L.foldl (fun u o => matSet u i (f o) 0) s).mat a b)
      = if a = i ∧ ∃ o ∈ L, b = f o then 0 else s.mat a b := by
  induction L generalizing s with
  | nil => simp
  | cons o L ih =>
    rw [List.foldl_cons, ih, matSet_mat]
    by_cases ha : a = i
    · subst ha
      by_cases hb : ∃ o' ∈ L, b = f o'
      · rw [if_pos ⟨rfl, hb⟩]
        rcases hb with ⟨o', ho', hv⟩
        rw [if_pos ⟨rfl, o', List.mem_cons_of_mem o ho', hv⟩]
      · rw [if_neg (fun h => hb h.2)]
        by_cases hob : b = f o
        · rw [if_pos ⟨rfl, hob⟩, if_pos ⟨rfl, o, List.mem_cons_self o L, hob⟩]
        · rw [if_neg (fun h => hob h.2), if_neg ?_]
          rintro ⟨-, o', ho', hv⟩
          rcases List.mem_cons.mp ho' with rfl | h
          · exact hob hv
          · exact hb ⟨o', h, hv⟩
    · rw [if_neg (fun h => ha h.1), if_neg (fun h => ha h.1), if_neg (fun h => ha h.1)]

theorem zeroList_rhs (i : ℕ) (f : ℕ → ℕ) (L : List ℕ) (s : LinSys) :
    (L.foldl (fun u o => matSet u i (f o) 0) s).rhs = s.rhs := by
  induction L generalizing s with
  | nil => rfl
  | cons o L ih => rw [List.foldl_cons, ih, matSet_rhs]

theorem zeroRow_mat (i : ℕ) (neigh : List Cell) (len : ℕ) (s : LinSys) (a b : ℕ) :
    (zeroRow i neigh len s).mat a b
      = if a = i ∧ ∃ c ∈ neigh, ∃ o ∈ List.range len, b = c.dofs.getD o 0 then 0
        else s.mat a b := by
  induction neigh generalizing s with
  | nil => simp [zeroRow]
  | cons c neigh ih =>
    have hstep : zeroRow i (c :: neigh) len s
        = zeroRow i neigh len ((List.range len).foldl
            (fun u o => matSet u i (c.dofs.getD o 0) 0) s) := rfl
    rw [hstep, ih, zeroList_mat]
    by_cases ha : a = i
    · subst ha
      by_cases hb : ∃ c' ∈ neigh, ∃ o ∈ List.range len, b = c'.dofs.getD o 0
      · rw [if_pos ⟨rfl, hb⟩]
        rcases hb with ⟨c', hc', ho⟩
        rw [if_pos ⟨rfl, c', List.mem_cons_of_mem c hc', ho⟩]
      · rw [if_neg (fun h => hb h.2)]
        by_cases hc : ∃ o ∈ List.range len, b = c.dofs.getD o 0
        · rw [if_pos ⟨rfl, hc⟩, if_pos ⟨rfl, c, List.mem_cons_self c neigh, hc⟩]
        · rw [if_neg (fun h => hc h.2), if_neg ?_]
          rintro ⟨-, c', hc', ho⟩
          rcases List.mem_cons.mp hc' with rfl | h
          · exact hc ho
          · exact hb ⟨c', h, ho⟩
    · rw [if_neg (fun h => ha h.1), if_neg (fun h => ha h.1), if_neg (fun h => ha h.1)]

theorem zeroRow_rhs (i : ℕ) (neigh : List Cell) (len : ℕ) (s : LinSys) :
    (zeroRow i neigh len s).rhs = s.rhs := by
  induction neigh generalizing s with
  | nil => rfl
  | cons c neigh ih =>
    have hstep : zeroRow i (c :: neigh) len s
        = zeroRow i neigh len ((List.range len).foldl
            (fun u o => matSet u i (c.dofs.getD o 0) 0) s) := rfl
    rw [hstep, ih, zeroList_rhs]

theorem addLoop_rhs (i : ℕ) (col : ℕ → ℕ) (w : ℕ → ℚ) (L : List ℕ) (s : LinSys) :
    (addLoop i col w L s).rhs = s.rhs := by
  induction L generalizing s with
  | nil => rfl
  | cons n L ih =>
    have hstep : addLoop i col w (n :: L) s = addLoop i col w L (matAdd s i (col n) (w n)) := rfl
    rw [hstep, ih, matAdd_rhs]

/-- A position none of the interpolation writes targets keeps its value. -/
theorem addLoop_mat_miss (i : ℕ) (col : ℕ → ℕ) (w : ℕ → ℚ) (L : List ℕ)
    (s : LinSys) (a b : ℕ) (h : ∀ n ∈ L, ¬(a = i ∧ b = col n)) :
    (addLoop i col w L s).mat a b = s.mat a b := by
  induction L generalizing s with
  | nil => rfl
  | cons n L ih =>
    have hstep : addLoop i col w (n :: L) s = addLoop i col w L (matAdd s i (col n) (w n)) := rfl
    rw [hstep, ih _ (fun m hm => h m (List.mem_cons_of_mem n hm)), matAdd_mat,
      if_neg (h n (List.mem_cons_self n L))]

/-- When the written columns are pairwise distinct, each targeted entry ends
at its previous value plus its own weight. -/
theorem addLoop_mat_hit (i : ℕ) (col : ℕ → ℕ) (w : ℕ → ℚ) (L : List ℕ)
    (s : LinSys) (n0 : ℕ) (hp : (L.map col).Pairwise Ne) (hn : n0 ∈ L) :
    (addLoop i col w L s).mat i (col n0) = s.mat i (col n0) + w n0 := by
  induction L generalizing s with
  | nil => cases hn
  | cons n L ih =>
    rw [List.map_cons, List.pairwise_cons] at hp
    have hstep : addLoop i col w (n :: L) s = addLoop i col w L (matAdd s i (col n) (w n)) := rfl
    rcases List.mem_cons.mp hn with h | h
    · subst h
      rw [hstep, addLoop_mat_miss]
      · rw [matAdd_mat, if_pos ⟨rfl, rfl⟩]
      · intro m hm hc
        exact hp.1 (col m) (List.mem_map_of_mem col hm) (hc.2.symm ▸ rfl)
    · have hne : col n ≠ col n0 := hp.1 (col n0) (List.mem_map_of_mem col h)
      rw [hstep, ih _ hp.2 h, matAdd_mat, if_neg (fun hc => hne hc.2.symm)]

theorem strideAux_mem_lt (len : ℕ) : ∀ fuel k, ∀ n ∈ strideAux len fuel k, n < len := by
  intro fuel
  induction fuel with
  | zero =>
    intro k n hn
    cases hn
  | succ f ih =>
    intro k n hn
    rw [strideAux] at hn
    by_cases h : k < len
    · rw [if_pos h] at hn
      rcases List.mem_cons.mp hn with rfl | hmem
      · exact h
      · exact ih _ n hmem
    · rw [if_neg h] at hn
      cases hn

/-- Every stride position is below the bound. -/
theorem strideIdx_mem_lt (len : ℕ) : ∀ k, ∀ n ∈ strideIdx len k, n < len :=
  fun k => strideAux_mem_lt len len k

/-- A getD at an index below the length is a member. -/
theorem getD_mem_of_lt {l : List ℕ} {n : ℕ} (d : ℕ) (h : n < l.length) :
    l.getD n d ∈ l := by
  rw [List.getD_eq_getElem l d h]
  exact List.getElem_mem h

/-- The selected stencil cell is one of the vertex neighbors whenever the
neighbor list is nonempty. -/
theorem stencilOf_mem (ctx : IBCtx) (neigh : List Cell) (p : Vec2)
    (h : neigh ≠ []) : stencilOf ctx neigh p ∈ neigh := by
  unfold stencilOf findCell
  have hlen : 0 < neigh.length := List.length_pos.mpr h
  cases hf : (List.range neigh.length).find? (fun idx =>
      match ctx.toUnit (neigh.getD idx default) p with
      | none => false
      | some ξ => decide (ctx.distUnit ξ = 0)) with
  | none =>
    simp only
    rw [List.getD_eq_getElem neigh default hlen]
    exact List.getElem_mem hlen
  | some idx =>
    simp only
    have hidx : idx ∈ List.range neigh.length := List.mem_of_find?_eq_some hf
    have hlt : idx < neigh.length := List.mem_range.mp hidx
    rw [List.getD_eq_getElem neigh default hlt]
    exact List.getElem_mem hlt

/-! ## Characterization of one gls row rewrite -/

/-- The matrix of a rewritten system is the matrix part of the rewrite; the
trailing rhs writes do not touch it. -/
theorem glsRewriteDof_mat_eq (ctx : IBCtx) (initial : Bool) (cell : Cell)
    (k l : ℕ) (s : LinSys) :
    (glsRewriteDof ctx initial cell k l s).mat
      = (if glsD ctx cell l ≠ 0 then
          addLoop (dofAt cell l) (fun n => (glsC2 ctx cell l).dofs.getD n 0)
            (fun n => ctx.shape n (glsXiC ctx cell l)
              / (1 / s.mat (dofAt cell l) (dofAt cell l)))
            (strideIdx (glsC2 ctx cell l).dofs.length k)
            (matSet (zeroRow (dofAt cell l) (glsNeigh ctx cell l)
                (glsC2 ctx cell l).dofs.length s)
              (dofAt cell l) (dofAt cell l)
              (-2 / (1 / s.mat (dofAt cell l) (dofAt cell l))))
        else
          matSet (zeroRow (dofAt cell l) (glsNeigh ctx cell l)
              (glsC2 ctx cell l).dofs.length s)
            (dofAt cell l) (dofAt cell l)
            (s.mat (dofAt cell l) (dofAt cell l))).mat := by
  simp only [glsRewriteDof]
  split_ifs <;> rfl

/-- The right-hand-side entry of a rewritten row: the couette datum scaled by
the pre-override diagonal on the initial couette step, zero otherwise. -/
theorem glsRewriteDof_rhs_i (ctx : IBCtx) (initial : Bool) (cell : Cell)
    (k l : ℕ) (s : LinSys) :
    (glsRewriteDof ctx initial cell k l s).rhs (dofAt cell l)
      = if ctx.couette && initial then
          glsG ctx cell l k * s.mat (dofAt cell l) (dofAt cell l)
        else 0 := by
  simp only [glsRewriteDof]
  rcases hc : ctx.couette with _ | _
  · simp [rhsSet_rhs]
  · rcases initial with _ | _
    · simp [rhsSet_rhs]
    · by_cases hk : k = 0
      · simp [hk, rhsSet_rhs, glsG, one_div, div_inv_eq_mul]
      · simp [hk, rhsSet_rhs, glsG, one_div, div_inv_eq_mul, neg_one_mul, neg_mul, neg_div]

/-- Diagonal of a rewritten row when the distance is nonzero: -2 times the
pre-override diagonal (the code writes -2/(1/J_ii)). -/
theorem glsRewrite_diag (ctx : IBCtx) (initial : Bool) (cell : Cell) (k l : ℕ)
    (s : LinSys) (hd : glsD ctx cell l ≠ 0)
    (hni : dofAt cell l ∉ glsCols ctx cell l k) :
    (glsRewriteDof ctx initial cell k l s).mat (dofAt cell l) (dofAt cell l)
      = -2 * s.mat (dofAt cell l) (dofAt cell l) := by
  rw [glsRewriteDof_mat_eq, if_pos hd]
  rw [addLoop_mat_miss]
  · rw [matSet_mat, if_pos ⟨rfl, rfl⟩, one_div, div_inv_eq_mul]
  · rintro n hn ⟨-, h2⟩
    exact hni (h2 ▸ List.mem_map_of_mem _ hn)

/-- Stencil entries of a rewritten row when the distance is nonzero and the
written columns are distinct and avoid the diagonal: pre-override diagonal
times the shape value (the code adds shape/(1/J_ii) after clearing). -/
theorem glsRewrite_entry (ctx : IBCtx) (initial : Bool) (cell : Cell) (k l : ℕ)
    (s : LinSys) (hd : glsD ctx cell l ≠ 0)
    (hp : (dofAt cell l :: glsCols ctx cell l k).Pairwise Ne)
    (n0 : ℕ) (hn : n0 ∈ strideIdx (glsC2 ctx cell l).dofs.length k) :
    (glsRewriteDof ctx initial cell k l s).mat (dofAt cell l)
        ((glsC2 ctx cell l).dofs.getD n0 0)
      = s.mat (dofAt cell l) (dofAt cell l) * ctx.shape n0 (glsXiC ctx cell l) := by
  rw [glsRewriteDof_mat_eq, if_pos hd]
  rw [List.pairwise_cons] at hp
  rw [addLoop_mat_hit _ _ _ _ _ n0 hp.2 hn]
  have hlt : n0 < (glsC2 ctx cell l).dofs.length := strideIdx_mem_lt _ k n0 hn
  have hne : dofAt cell l ≠ (glsC2 ctx cell l).dofs.getD n0 0 :=
    hp.1 _ (List.mem_map_of_mem _ hn)
  have hne2 : glsNeigh ctx cell l ≠ [] := by
    intro h0
    have : (glsC2 ctx cell l).dofs.length = 0 := by
      rw [glsC2, stencilOf, h0]
      rfl
    omega
  have hmem2 : glsC2 ctx cell l ∈ glsNeigh ctx cell l := by
    rw [glsC2]
    exact stencilOf_mem ctx _ _ hne2
  rw [matSet_mat, if_neg (fun h => hne h.2.symm)]
  rw [zeroRow_mat, if_pos ⟨rfl, glsC2 ctx cell l, hmem2, n0, List.mem_range.mpr hlt, rfl⟩]
  rw [zero_add, one_div, div_inv_eq_mul, mul_comm]

/-- Diagonal of a rewritten row when the distance is zero: the pre-override
diagonal is written back unchanged, with no division anywhere. -/
theorem glsRewrite_diag_d0 (ctx : IBCtx) (initial : Bool) (cell : Cell)
    (k l : ℕ) (s : LinSys) (hd : glsD ctx cell l = 0) :
    (glsRewriteDof ctx initial cell k l s).mat (dofAt cell l) (dofAt cell l)
      = s.mat (dofAt cell l) (dofAt cell l) := by
  rw [glsRewriteDof_mat_eq, if_neg (by simp [hd])]
  rw [matSet_mat, if_pos ⟨rfl, rfl⟩]

/-- Off-diagonal entries of a zero-distance rewritten row within the cleared
span are zero. -/
theorem glsRewrite_row_d0 (ctx : IBCtx) (initial : Bool) (cell : Cell)
    (k l : ℕ) (s : LinSys) (hd : glsD ctx cell l = 0) (b : ℕ)
    (hb : b ≠ dofAt cell l)
    (hit : ∃ c ∈ glsNeigh ctx cell l,
      ∃ o ∈ List.range (glsC2 ctx cell l).dofs.length, b = c.dofs.getD o 0) :
    (glsRewriteDof ctx initial cell k l s).mat (dofAt cell l) b = 0 := by
  rw [glsRewriteDof_mat_eq, if_neg (by simp [hd])]
  rw [matSet_mat, if_neg (fun h => hb h.2)]
  rw [zeroRow_mat, if_pos ⟨rfl, hit⟩]

/-! ## Characterization of one direct row rewrite -/

theorem directRewriteDof_mat_eq (ctx : DCtx) (cell : Cell) (k l : ℕ) (s : LinSys) :
    (directRewriteDof ctx cell k l s).mat
      = (addLoop (dofAt cell l)
          (fun n => (directStencilCell ctx (ctx.support (dofAt cell l))).dofs.getD n 0)
          (fun n => ctx.shape n (directXi ctx (ctx.support (dofAt cell l)))
            / (directDist ctx (ctx.support (dofAt cell l))
              * directDist ctx (ctx.support (dofAt cell l))))
          (strideIdx (directStencilCell ctx (ctx.support (dofAt cell l))).dofs.length k)
          (matSet ((List.range ctx.nDofs).foldl
              (fun t m => matSet t (dofAt cell l) m 0) s)
            (dofAt cell l) (dofAt cell l)
            (-2 / (directDist ctx (ctx.support (dofAt cell l))
              * directDist ctx (ctx.support (dofAt cell l)))))).mat := by
  simp only [directRewriteDof]
  split_ifs <;> rfl

/-- Diagonal of a direct-rewritten row: -2 divided by the squared distance,
with no dependence on the pre-override diagonal. -/
theorem directRewrite_diag (ctx : DCtx) (cell : Cell) (k l : ℕ) (s : LinSys)
    (hni : dofAt cell l ∉ dCols ctx cell l k) :
    (directRewriteDof ctx cell k l s).mat (dofAt cell l) (dofAt cell l)
      = -2 / (directDist ctx (ctx.support (dofAt cell l))
          * directDist ctx (ctx.support (dofAt cell l))) := by
  rw [directRewriteDof_mat_eq]
  rw [addLoop_mat_miss]
  · rw [matSet_mat, if_pos ⟨rfl, rfl⟩]
  · rintro n hn ⟨-, h2⟩
    exact hni (h2 ▸ List.mem_map_of_mem _ hn)

/-- Stencil entries of a direct-rewritten row: shape value divided by the
squared distance. -/
theorem directRewrite_entry (ctx : DCtx) (cell : Cell) (k l : ℕ) (s : LinSys)
    (hp : (dofAt cell l :: dCols ctx cell l k).Pairwise Ne)
    (hlt2 : ∀ m ∈ dCols ctx cell l k, m < ctx.nDofs)
    (n0 : ℕ)
    (hn : n0 ∈ strideIdx (directStencilCell ctx (ctx.support (dofAt cell l))).dofs.length k) :
    (directRewriteDof ctx cell k l s).mat (dofAt cell l)
        ((directStencilCell ctx (ctx.support (dofAt cell l))).dofs.getD n0 0)
      = ctx.shape n0 (directXi ctx (ctx.support (dofAt cell l)))
          / (directDist ctx (ctx.support (dofAt cell l))
            * directDist ctx (ctx.support (dofAt cell l))) := by
  rw [directRewriteDof_mat_eq]
  rw [List.pairwise_cons] at hp
  rw [addLoop_mat_hit _ _ _ _ _ n0 hp.2 hn]
  have hmem : (directStencilCell ctx (ctx.support (dofAt cell l))).dofs.getD n0 0
      ∈ dCols ctx cell l k := List.mem_map_of_mem _ hn
  have hne : dofAt cell l
      ≠ (directStencilCell ctx (ctx.support (dofAt cell l))).dofs.getD n0 0 :=
    hp.1 _ hmem
  rw [matSet_mat, if_neg (fun h => hne h.2.symm)]
  rw [zeroList_mat, if_pos ⟨rfl, _, List.mem_range.mpr (hlt2 _ hmem), rfl⟩]
  rw [zero_add]

/-- The rhs entry of a direct-rewritten row: the couette datum divided by the
squared distance, on every call (the function has no initial-step argument
and couette is hardcoded true). -/
theorem directRewrite_rhs_i (ctx : DCtx) (cell : Cell) (k l : ℕ) (s : LinSys) :
    (directRewriteDof ctx cell k l s).rhs (dofAt cell l)
      = dG ctx cell l k / (directDist ctx (ctx.support (dofAt cell l))
          * directDist ctx (ctx.support (dofAt cell l))) := by
  simp only [directRewriteDof, directCouette]
  by_cases hk : k = 0
  · simp only [hk, if_pos rfl, if_true, Bool.true_eq_false, if_false, rhsSet_rhs, dG]
    rw [one_mul]
  · simp only [if_neg hk, if_true, Bool.true_eq_false, if_false, rhsSet_rhs, if_pos rfl, dG]
    rw [neg_one_mul, neg_div]

/-! ## Vector component lemmas -/

theorem Vec2.add_def (a b : Vec2) : a + b = ⟨a.x + b.x, a.y + b.y⟩ := rfl

theorem Vec2.sub_def (a b : Vec2) : a - b = ⟨a.x - b.x, a.y - b.y⟩ := rfl

theorem Vec2.smul_def (c : ℚ) (v : Vec2) : c • v = ⟨c * v.x, c * v.y⟩ := rfl

/-! ## Line-search step lemmas -/

theorem lsGls_stop (ctx : LSCtx) (δ : ℕ → ℚ) (f : ℕ) (α : ℚ) (st : LSState)
    (h : ¬ α > 1 / 1000) : lsGls ctx δ f α st = st := by
  cases f with
  | zero => rfl
  | succ f =>
    simp only [lsGls]
    rw [if_neg h]

theorem lsGls_accept (ctx : LSCtx) (δ : ℕ → ℚ) (f : ℕ) (α : ℚ) (pr : ℕ → ℚ)
    (cu la : ℚ) (h1 : α > 1 / 1000)
    (h2 : ctx.resAt (ctx.distribute (vAdd pr α δ)) < la) :
    lsGls ctx δ (f + 1) α { present := pr, cur := cu, last := la }
      = { present := ctx.distribute (vAdd pr α δ)
          cur := ctx.resAt (ctx.distribute (vAdd pr α δ))
          last := la } := by
  simp only [lsGls]
  rw [if_pos h1, if_pos h2]

theorem lsGls_reject (ctx : LSCtx) (δ : ℕ → ℚ) (f : ℕ) (α : ℚ) (pr : ℕ → ℚ)
    (cu la : ℚ) (h1 : α > 1 / 1000)
    (h2 : ¬ ctx.resAt (ctx.distribute (vAdd pr α δ)) < la) :
    lsGls ctx δ (f + 1) α { present := pr, cur := cu, last := la }
      = lsGls ctx δ f (α / 2)
          { present := ctx.distribute (vAdd pr α δ)
            cur := ctx.resAt (ctx.distribute (vAdd pr α δ))
            last := ctx.resAt (ctx.distribute (vAdd pr α δ)) } := by
  simp only [lsGls]
  rw [if_pos h1, if_neg h2]

set_option maxHeartbeats 1000000 in
/-- When no trial is ever accepted, after J+1 rejected trials the loop holds
the cumulative iterate glsTrial J with fuel 19-J and alpha (1/2)^(J+1). -/
theorem lsGls_run (ctx : LSCtx) (δ p : ℕ → ℚ) (L : ℚ)
    (h0 : ¬ ctx.resAt (glsTrial ctx δ p 0) < L)
    (hstep : ∀ j, j < 9 →
      ¬ ctx.resAt (glsTrial ctx δ p (j + 1)) < ctx.resAt (glsTrial ctx δ p j)) :
    ∀ J, J ≤ 9 → glsLineSearch ctx δ p L
      = lsGls ctx δ (19 - J) ((1 / 2 : ℚ) ^ (J + 1))
          { present := glsTrial ctx δ p J
            cur := ctx.resAt (glsTrial ctx δ p J)
            last := ctx.resAt (glsTrial ctx δ p J) } := by
  intro J
  induction J with
  | zero =>
    intro _
    rw [show (19 : ℕ) - 0 = 19 from rfl, show ((1 : ℚ) / 2) ^ (0 + 1) = 1 / 2 by norm_num,
      show glsTrial ctx δ p 0 = ctx.distribute (vAdd p 1 δ) from rfl, glsLineSearch]
    exact lsGls_reject ctx δ 19 1 p L L (by norm_num) h0
  | succ J ihJ =>
    intro hJ9
    have hα : ((1 : ℚ) / 2) ^ (J + 1) > 1 / 1000 := by
      have h9 : ((1 : ℚ) / 2) ^ 9 ≤ (1 / 2) ^ (J + 1) :=
        pow_le_pow_of_le_one (by norm_num) (by norm_num) (by omega)
      calc (1 : ℚ) / 1000 < (1 / 2) ^ 9 := by norm_num
        _ ≤ (1 / 2) ^ (J + 1) := h9
    have hfuel : 19 - J = (19 - (J + 1)) + 1 := by omega
    have hαeq : ((1 : ℚ) / 2) ^ (J + 1) / 2 = (1 / 2) ^ (J + 1 + 1) := by
      rw [pow_succ]
      ring
    have hrej := lsGls_reject ctx δ (19 - (J + 1)) ((1 / 2 : ℚ) ^ (J + 1))
      (glsTrial ctx δ p J) (ctx.resAt (glsTrial ctx δ p J)) (ctx.resAt (glsTrial ctx δ p J)) hα
      (hstep J (by omega))
    have ht : glsTrial ctx δ p (J + 1)
        = ctx.distribute (vAdd (glsTrial ctx δ p J) ((1 / 2 : ℚ) ^ (J + 1)) δ) := rfl
    rw [ihJ (by omega), hfuel, hrej, hαeq, ht]

theorem lsDirect_stop (ctx : LSCtx) (δ p : ℕ → ℚ) (f : ℕ) (α : ℚ) (ev : ℕ → ℚ)
    (h : ¬ α > 1 / 1000) : lsDirect ctx δ p f α ev = ev := by
  cases f with
  | zero => rfl
  | succ f =>
    simp only [lsDirect]
    rw [if_neg h]

theorem lsDirect_step (ctx : LSCtx) (δ p : ℕ → ℚ) (f : ℕ) (α : ℚ) (ev : ℕ → ℚ)
    (h : α > 1 / 1000) :
    lsDirect ctx δ p (f + 1) α ev
      = lsDirect ctx δ p f (α / 2) (ctx.distribute (vAdd p α δ)) := by
  simp only [lsDirect]
  rw [if_pos h]

set_option maxHeartbeats 1000000 in
/-- The direct loop after J+1 trials: the evaluation point of the last trial
taken, alpha (1/2)^(J+1) pending. -/
theorem lsDirect_run (ctx : LSCtx) (δ p : ℕ → ℚ) :
    ∀ J, J ≤ 9 → directLineSearch ctx δ p
      = lsDirect ctx δ p (19 - J) ((1 / 2 : ℚ) ^ (J + 1))
          (ctx.distribute (vAdd p ((1 / 2 : ℚ) ^ J) δ)) := by
  intro J
  induction J with
  | zero =>
    intro _
    rw [show (19 : ℕ) - 0 = 19 from rfl, show ((1 : ℚ) / 2) ^ (0 + 1) = 1 / 2 by norm_num,
      show ((1 : ℚ) / 2) ^ 0 = 1 by norm_num, directLineSearch]
    exact lsDirect_step ctx δ p 19 1 p (by norm_num)
  | succ J ihJ =>
    intro hJ9
    have hα : ((1 : ℚ) / 2) ^ (J + 1) > 1 / 1000 := by
      have h9 : ((1 : ℚ) / 2) ^ 9 ≤ (1 / 2) ^ (J + 1) :=
        pow_le_pow_of_le_one (by norm_num) (by norm_num) (by omega)
      calc (1 : ℚ) / 1000 < (1 / 2) ^ 9 := by norm_num
        _ ≤ (1 / 2) ^ (J + 1) := h9
    have hfuel : 19 - J = (19 - (J + 1)) + 1 := by omega
    have hαeq : ((1 : ℚ) / 2) ^ (J + 1) / 2 = (1 / 2) ^ (J + 1 + 1) := by
      rw [pow_succ]
      ring
    rw [ihJ (by omega), hfuel,
      lsDirect_step ctx δ p (19 - (J + 1)) ((1 / 2 : ℚ) ^ (J + 1))
        (ctx.distribute (vAdd p ((1 / 2 : ℚ) ^ J) δ)) hα, hαeq]

/-! ## Newton loop lemmas -/

theorem newtonBody_outer (ctx : NCtx) (st : NState) :
    (newtonBody ctx st).outer = st.outer + 1 := by
  rw [newtonBody]
  split <;> rfl

/-- The loop runs at most its fuel and exits only on the guard: convergence
after the first step, or the iteration cap. -/
theorem newtonLoop_bound (ctx : NCtx) (tol : ℚ) (maxIt : ℕ) :
    ∀ fuel st, st.outer + fuel = maxIt →
      (newtonLoop ctx tol maxIt fuel st).outer ≤ maxIt ∧
      ((newtonLoop ctx tol maxIt fuel st).first = false ∧
          (newtonLoop ctx tol maxIt fuel st).res ≤ tol
        ∨ (newtonLoop ctx tol maxIt fuel st).outer = maxIt) := by
  intro fuel
  induction fuel with
  | zero =>
    intro st h
    simp only [newtonLoop]
    exact ⟨by omega, Or.inr (by omega)⟩
  | succ f ih =>
    intro st h
    rw [newtonLoop]
    split
    · exact ih (newtonBody ctx st) (by rw [newtonBody_outer]; omega)
    · rename_i hguard
      have hlt : st.outer < maxIt := by omega
      constructor
      · omega
      · left
        cases hf : st.first with
        | false =>
          refine ⟨rfl, ?_⟩
          by_contra hres
          apply hguard
          rw [hf]
          simp only [Bool.false_or, Bool.and_eq_true, decide_eq_true_eq]
          exact ⟨lt_of_not_le hres, hlt⟩
        | true =>
          apply absurd ?_ hguard
          rw [hf]
          simp only [Bool.true_or, Bool.true_and, decide_eq_true_eq]
          exact hlt

/-! ## Assembly scatter frame lemmas -/

theorem rhsAccumFold_mat (J : List (ℕ × ℚ)) (v : ℚ) (t : LinSys) :
    (J.foldl (fun u jc =>
      { u with rhs := fun a => if a = jc.1 then u.rhs a + jc.2 * v else u.rhs a }) t).mat
      = t.mat := by
  induction J generalizing t with
  | nil => rfl
  | cons jc J ih => rw [List.foldl_cons, ih]

theorem scatterRhs_mat (resolve : ℕ → List (ℕ × ℚ)) (cell : Cell) (lr : ℕ → ℚ)
    (s : LinSys) : (scatterRhs resolve cell lr s).mat = s.mat := by
  unfold scatterRhs
  generalize List.range cell.dofs.length = L
  induction L generalizing s with
  | nil => rfl
  | cons li L ih => rw [List.foldl_cons, ih, rhsAccumFold_mat]

/-! ## Claim theorems -/

/-- Claim C1 (amended).  For a velocity dof row rewritten with d ≠ 0, the gls
prototype writes the diagonal as -2α and each component-k stencil entry as
α·N_m(ξ*), with no 1/d² factor (α the pre-override diagonal); the direct
prototype instead writes -2/d² on the diagonal and N_m(ξ*)/d² on the stencil
entries, with no α factor.  Stated under the side conditions that the stencil
columns are pairwise distinct and avoid the rewritten row (otherwise the adds
accumulate), and for the direct version that the stencil columns lie inside
the cleared row. -/
theorem C1_override_scaling :
    (∀ (ctx : IBCtx) (initial : Bool) (cell : Cell) (k l : ℕ) (s : LinSys),
      glsD ctx cell l ≠ 0 →
      (dofAt cell l :: glsCols ctx cell l k).Pairwise Ne →
      (glsRewriteDof ctx initial cell k l s).mat (dofAt cell l) (dofAt cell l)
          = -2 * s.mat (dofAt cell l) (dofAt cell l) ∧
      ∀ n ∈ strideIdx (glsC2 ctx cell l).dofs.length k,
        (glsRewriteDof ctx initial cell k l s).mat (dofAt cell l)
            ((glsC2 ctx cell l).dofs.getD n 0)
          = s.mat (dofAt cell l) (dofAt cell l) * ctx.shape n (glsXiC ctx cell l)) ∧
    (∀ (ctx : DCtx) (cell : Cell) (k l : ℕ) (s : LinSys),
      (dofAt cell l :: dCols ctx cell l k).Pairwise Ne →
      (∀ m ∈ dCols ctx cell l k, m < ctx.nDofs) →
      (directRewriteDof ctx cell k l s).mat (dofAt cell l) (dofAt cell l)
          = -2 / (directDist ctx (ctx.support (dofAt cell l))
              * directDist ctx (ctx.support (dofAt cell l))) ∧
      ∀ n ∈ strideIdx (directStencilCell ctx (ctx.support (dofAt cell l))).dofs.length k,
        (directRewriteDof ctx cell k l s).mat (dofAt cell l)
            ((directStencilCell ctx (ctx.support (dofAt cell l))).dofs.getD n 0)
          = ctx.shape n (directXi ctx (ctx.support (dofAt cell l)))
              / (directDist ctx (ctx.support (dofAt cell l))
                * directDist ctx (ctx.support (dofAt cell l)))) := by
  constructor
  · intro ctx initial cell k l s hd hp
    have hni : dofAt cell l ∉ glsCols ctx cell l k :=
      fun hmem => (List.pairwise_cons.mp hp).1 _ hmem rfl
    exact ⟨glsRewrite_diag ctx initial cell k l s hd hni,
      fun n hn => glsRewrite_entry ctx initial cell k l s hd hp n hn⟩
  · intro ctx cell k l s hp hlt
    have hni : dofAt cell l ∉ dCols ctx cell l k :=
      fun hmem => (List.pairwise_cons.mp hp).1 _ hmem rfl
    exact ⟨directRewrite_diag ctx cell k l s hni,
      fun n hn => directRewrite_entry ctx cell k l s hp hlt n hn⟩

set_option maxRecDepth 10000 in
/-- Claim C1 witness: the two-cell gls run (α = 1, d = 1/2) and the direct run
(d = 21/100), with all side conditions checked by evaluation. -/
theorem C1_override_scaling_witness :
    (glsRewriteDof ctx2 false cellA 0 0 s0).mat (dofAt cellA 0) (dofAt cellA 0)
        = -2 * s0.mat (dofAt cellA 0) (dofAt cellA 0) ∧
    (glsRewriteDof ctx2 false cellA 0 0 s0).mat (dofAt cellA 0)
        ((glsC2 ctx2 cellA 0).dofs.getD 0 0)
        = s0.mat (dofAt cellA 0) (dofAt cellA 0) * ctx2.shape 0 (glsXiC ctx2 cellA 0) ∧
    (directRewriteDof dctx cellA 0 0 s0).mat (dofAt cellA 0) (dofAt cellA 0)
        = -2 / (directDist dctx (dctx.support (dofAt cellA 0))
            * directDist dctx (dctx.support (dofAt cellA 0))) ∧
    (directRewriteDof dctx cellA 0 0 s0).mat (dofAt cellA 0)
        ((directStencilCell dctx (dctx.support (dofAt cellA 0))).dofs.getD 0 0)
        = dctx.shape 0 (directXi dctx (dctx.support (dofAt cellA 0)))
            / (directDist dctx (dctx.support (dofAt cellA 0))
              * directDist dctx (dctx.support (dofAt cellA 0))) :=
  ⟨(C1_override_scaling.1 ctx2 false cellA 0 0 s0 (by decide) (by decide)).1,
   (C1_override_scaling.1 ctx2 false cellA 0 0 s0 (by decide) (by decide)).2 0 (by decide),
   (C1_override_scaling.2 dctx cellA 0 0 s0 (by decide) (by decide)).1,
   (C1_override_scaling.2 dctx cellA 0 0 s0 (by decide) (by decide)).2 0 (by decide)⟩

set_option maxRecDepth 10000 in
/-- Claim C1 counterexample: in a concrete cut-cell run of the gls
sharp_edge_V2 with pre-override diagonal α = 1 and distance d = 1/2 ≠ 0, the
rewritten diagonal is -23/16, not the claimed -2α/d² = -8. -/
theorem C1_cex :
    glsD ctxR cellA 0 ≠ 0 ∧
    (sharpEdgeV2 ctxR false s0).mat 0 0
      ≠ -2 * s0.mat 0 0 / (glsD ctxR cellA 0 * glsD ctxR cellA 0) := by
  decide

/-- Claim C2 (amended).  The second stencil point both prototypes compute is
x_m = x_i + (x_i - x_proj) = 2·x_i - x_proj, the reflection of the projection
point through the support point, not the reflection of the support point
through the projection. -/
theorem C2_mirror_point :
    (∀ (ctx : IBCtx) (xl : Vec2),
      glsSecondPoint ctx xl = (2 : ℚ) • xl - glsProj ctx xl) ∧
    (∀ (ctx : DCtx) (xl : Vec2),
      directSecondPoint ctx xl = (2 : ℚ) • xl - directProj ctx xl) := by
  constructor
  · intro ctx xl
    simp only [glsSecondPoint, glsVectDist, glsProj, unitVec, Vec2.sdiv,
      Vec2.add_def, Vec2.sub_def, Vec2.smul_def, Vec2.mk.injEq]
    constructor <;> ring
  · intro ctx xl
    simp only [directSecondPoint, directVectDist, directProj, directUnit,
      directCenter, Vec2.sdiv, Vec2.add_def, Vec2.sub_def, Vec2.smul_def, Vec2.mk.injEq]
    constructor <;> ring

set_option maxRecDepth 10000 in
/-- Claim C2 counterexample: for the support point (3,0), center (0,0) and
radius 7/2, the code computes x_m = (5/2, 0) while the claimed formula
x_i + 2(x_proj - x_i) gives (4, 0). -/
theorem C2_cex :
    glsSecondPoint ctxR ⟨3, 0⟩
      ≠ (⟨3, 0⟩ : Vec2) + (2 : ℚ) • (glsProj ctxR ⟨3, 0⟩ - ⟨3, 0⟩) := by
  decide

/-- Claim C3 (amended).  The gls prototype sets the rewritten rhs entry to
α·g_k(x_proj), with no 1/d² factor, on the initial couette step and to 0 on
every non-initial step; the direct prototype sets it to g_k(x_proj)/d², with
no α factor, on every call (its sharp_edge_V2 has no initial-step
argument). -/
theorem C3_rhs_values :
    (∀ (ctx : IBCtx) (cell : Cell) (k l : ℕ) (s : LinSys),
      (ctx.couette = true →
        (glsRewriteDof ctx true cell k l s).rhs (dofAt cell l)
          = glsG ctx cell l k * s.mat (dofAt cell l) (dofAt cell l)) ∧
      (glsRewriteDof ctx false cell k l s).rhs (dofAt cell l) = 0) ∧
    (∀ (ctx : DCtx) (cell : Cell) (k l : ℕ) (s : LinSys),
      (directRewriteDof ctx cell k l s).rhs (dofAt cell l)
        = dG ctx cell l k / (directDist ctx (ctx.support (dofAt cell l))
            * directDist ctx (ctx.support (dofAt cell l)))) := by
  refine ⟨fun ctx cell k l s => ⟨fun hc => ?_, ?_⟩,
    fun ctx cell k l s => directRewrite_rhs_i ctx cell k l s⟩
  · rw [glsRewriteDof_rhs_i]
    simp [hc]
  · rw [glsRewriteDof_rhs_i]
    simp

set_option maxRecDepth 10000 in
/-- Claim C3 witness: the couette rhs values on the rhombus instance and the
direct instance. -/
theorem C3_rhs_values_witness :
    (glsRewriteDof ctxC true cellA 1 1 s0).rhs (dofAt cellA 1)
        = glsG ctxC cellA 1 1 * s0.mat (dofAt cellA 1) (dofAt cellA 1) ∧
    (glsRewriteDof ctxC false cellA 1 1 s0).rhs (dofAt cellA 1) = 0 ∧
    (directRewriteDof dctx cellA 1 0 s0).rhs (dofAt cellA 0)
        = dG dctx cellA 0 1 / (directDist dctx (dctx.support (dofAt cellA 0))
            * directDist dctx (dctx.support (dofAt cellA 0))) :=
  ⟨(C3_rhs_values.1 ctxC cellA 1 1 s0).1 (by decide),
   (C3_rhs_values.1 ctxC cellA 1 1 s0).2,
   C3_rhs_values.2 dctx cellA 1 0 s0⟩

set_option maxRecDepth 10000 in
/-- Claim C3 counterexample: on the initial couette step with α = 1, g = -1
and d = 1/2, the gls prototype writes rhs = -1, not the claimed
α·g/d² = -4. -/
theorem C3_cex :
    ctxC.couette = true ∧ glsD ctxC cellA 1 ≠ 0 ∧
    (sharpEdgeV2 ctxC true s0).rhs 1
      ≠ s0.mat 1 1 * glsG ctxC cellA 1 1 / (glsD ctxC cellA 1 * glsD ctxC cellA 1) := by
  decide

/-- Claim C4 (amended).  Applying the row rewrite twice with the same argument
does not reproduce the once-rewritten system: the second pass captures α from
the already-rewritten diagonal, so the rewritten diagonal, the stencil
entries and (on the initial couette step) the rhs entry all come out
multiplied by -2 relative to a single pass.  The rewritten equation is thus
only preserved up to a nonzero rescaling; the matrix and rhs entries are
not. -/
theorem C4_double_override (ctx : IBCtx) (initial : Bool) (cell : Cell)
    (k l : ℕ) (s : LinSys) (hd : glsD ctx cell l ≠ 0)
    (hp : (dofAt cell l :: glsCols ctx cell l k).Pairwise Ne) :
    (glsRewriteDof ctx initial cell k l
        (glsRewriteDof ctx initial cell k l s)).mat (dofAt cell l) (dofAt cell l)
      = -2 * (glsRewriteDof ctx initial cell k l s).mat (dofAt cell l) (dofAt cell l) ∧
    (∀ n ∈ strideIdx (glsC2 ctx cell l).dofs.length k,
      (glsRewriteDof ctx initial cell k l
          (glsRewriteDof ctx initial cell k l s)).mat (dofAt cell l)
          ((glsC2 ctx cell l).dofs.getD n 0)
        = -2 * (glsRewriteDof ctx initial cell k l s).mat (dofAt cell l)
            ((glsC2 ctx cell l).dofs.getD n 0)) ∧
    (glsRewriteDof ctx initial cell k l
        (glsRewriteDof ctx initial cell k l s)).rhs (dofAt cell l)
      = (if ctx.couette && initial then
          -2 * (glsRewriteDof ctx initial cell k l s).rhs (dofAt cell l)
        else (glsRewriteDof ctx initial cell k l s).rhs (dofAt cell l)) := by
  have hni : dofAt cell l ∉ glsCols ctx cell l k :=
    fun hmem => (List.pairwise_cons.mp hp).1 _ hmem rfl
  have h1d := glsRewrite_diag ctx initial cell k l s hd hni
  refine ⟨?_, fun n hn => ?_, ?_⟩
  · rw [glsRewrite_diag ctx initial cell k l _ hd hni]
  · rw [glsRewrite_entry ctx initial cell k l _ hd hp n hn,
      glsRewrite_entry ctx initial cell k l s hd hp n hn, h1d]
    ring
  · rw [glsRewriteDof_rhs_i, glsRewriteDof_rhs_i, h1d]
    split_ifs with hci
    · ring
    · rfl

set_option maxRecDepth 10000 in
/-- Claim C4 witness: on the two-cell instance, the second pass scales the
rewritten diagonal by -2 and leaves the (zero) rhs entry unchanged. -/
theorem C4_double_override_witness :
    (glsRewriteDof ctx2 false cellA 0 0
        (glsRewriteDof ctx2 false cellA 0 0 s0)).mat (dofAt cellA 0) (dofAt cellA 0)
      = -2 * (glsRewriteDof ctx2 false cellA 0 0 s0).mat (dofAt cellA 0) (dofAt cellA 0) ∧
    (glsRewriteDof ctx2 false cellA 0 0
        (glsRewriteDof ctx2 false cellA 0 0 s0)).rhs (dofAt cellA 0)
      = (if ctx2.couette && false then
          -2 * (glsRewriteDof ctx2 false cellA 0 0 s0).rhs (dofAt cellA 0)
        else (glsRewriteDof ctx2 false cellA 0 0 s0).rhs (dofAt cellA 0)) :=
  ⟨(C4_double_override ctx2 false cellA 0 0 s0 (by decide) (by decide)).1,
   (C4_double_override ctx2 false cellA 0 0 s0 (by decide) (by decide)).2.2⟩

set_option maxRecDepth 10000 in
/-- Claim C4 counterexample: running the full gls sharp_edge_V2 twice on the
same system changes the matrix (the overridden diagonal moves from -23/16 to
529/256), so the override is not idempotent. -/
theorem C4_cex :
    (sharpEdgeV2 ctxR false (sharpEdgeV2 ctxR false s0)).mat 0 0
      ≠ (sharpEdgeV2 ctxR false s0).mat 0 0 := by
  decide

/-- Claim C5 (amended).  In the gls prototype, the line search commits each
trial to present_solution before testing it, so the trial iterates
accumulate: trial j is trial (j-1) plus 2⁻ʲ times the update
(glsTrial).  The first trial is compared against the previous iterate's
residual; every later trial is compared against the previous trial's
residual.  Tried step lengths stop at 2⁻⁹ > 10⁻³, and on exhaustion the last
cumulative trial (not present_solution + 10⁻³·δ) remains committed.  In the
direct prototype the acceptance test is commented out: every α down to 2⁻⁹
is tried, and what remains is the trial at α = 2⁻⁹. -/
theorem C5_line_search :
    (∀ (ctx : LSCtx) (δ p : ℕ → ℚ) (L : ℚ),
      ctx.resAt (glsTrial ctx δ p 0) < L →
      glsLineSearch ctx δ p L
        = { present := glsTrial ctx δ p 0
            cur := ctx.resAt (glsTrial ctx δ p 0), last := L }) ∧
    (∀ (ctx : LSCtx) (δ p : ℕ → ℚ) (L : ℚ),
      ¬ ctx.resAt (glsTrial ctx δ p 0) < L →
      (∀ j, j < 9 →
        ¬ ctx.resAt (glsTrial ctx δ p (j + 1)) < ctx.resAt (glsTrial ctx δ p j)) →
      glsLineSearch ctx δ p L
        = { present := glsTrial ctx δ p 9
            cur := ctx.resAt (glsTrial ctx δ p 9)
            last := ctx.resAt (glsTrial ctx δ p 9) }) ∧
    (∀ (ctx : LSCtx) (δ p : ℕ → ℚ),
      directLineSearch ctx δ p = ctx.distribute (vAdd p ((1 / 2 : ℚ) ^ 9) δ)) := by
  refine ⟨fun ctx δ p L hacc => ?_, fun ctx δ p L h0 hstep => ?_, fun ctx δ p => ?_⟩
  · rw [glsLineSearch]
    exact lsGls_accept ctx δ 19 1 p L L (by norm_num) hacc
  · rw [lsGls_run ctx δ p L h0 hstep 9 le_rfl]
    exact lsGls_stop ctx δ _ _ _ (by norm_num)
  · rw [lsDirect_run ctx δ p 9 le_rfl]
    exact lsDirect_stop ctx δ p _ _ _ (by norm_num)

/-- Claim C5 witness: with a residual oracle that improves at once the first
trial is accepted against the incoming last_res; with one that never
improves, the tenth cumulative trial remains; the direct loop always returns
the α = 2⁻⁹ trial. -/
theorem C5_line_search_witness :
    glsLineSearch lsZero dOne pZero 1
        = { present := glsTrial lsZero dOne pZero 0
            cur := lsZero.resAt (glsTrial lsZero dOne pZero 0), last := 1 } ∧
    glsLineSearch lsFlat dOne pZero 1
        = { present := glsTrial lsFlat dOne pZero 9
            cur := lsFlat.resAt (glsTrial lsFlat dOne pZero 9)
            last := lsFlat.resAt (glsTrial lsFlat dOne pZero 9) } ∧
    directLineSearch lsFlat dOne pZero
        = lsFlat.distribute (vAdd pZero ((1 / 2 : ℚ) ^ 9) dOne) :=
  ⟨C5_line_search.1 lsZero dOne pZero 1 (by decide),
   C5_line_search.2.1 lsFlat dOne pZero 1 (by decide) (by decide),
   C5_line_search.2.2 lsFlat dOne pZero⟩

set_option maxRecDepth 10000 in
/-- Claim C5 counterexample: with no trial ever improving the residual, the
committed iterate's entry is 1023/512 (the accumulated trials), not the
claimed present_solution + 10⁻³·δ. -/
theorem C5_cex :
    (glsLineSearch lsFlat dOne pZero 1).present 0 ≠ vAdd pZero (1 / 1000) dOne 0 := by
  decide

/-- Claim C6.  At every quadrature point, assemble computes the stabilization
parameter as τ = 1/√((2‖v‖/h)² + 9·(4ν/h²)²) with ‖v‖ floored at 10⁻¹², and
its element size h is the diameter of the disk (2D) or ball (3D) whose
measure equals the cell's. -/
theorem C6_tau_formula (u visc A V : ℝ) (hA : 0 ≤ A) (hV : 0 ≤ V) :
    tauAssemble u (hElem2d A) visc = tauClaimed u (hElem2d A) visc ∧
    Real.pi * (hElem2d A / 2) ^ 2 = A ∧
    Real.pi * (4 / 3) * (hElem3d V / 2) ^ 3 = V := by
  refine ⟨?_, ?_, ?_⟩
  · unfold tauAssemble tauClaimed
    rw [show hElem2d A * hElem2d A = hElem2d A ^ 2 by ring]
  · have hx : (0 : ℝ) ≤ 4 * A / Real.pi := by positivity
    unfold hElem2d
    rw [div_pow, Real.sq_sqrt hx]
    field_simp
    ring
  · have hx : (0 : ℝ) ≤ 6 * V / Real.pi := by positivity
    unfold hElem3d
    have h3 : (((6 * V / Real.pi) ^ ((1 : ℝ) / 3)) ^ (3 : ℕ) : ℝ) = 6 * V / Real.pi := by
      rw [← Real.rpow_natCast ((6 * V / Real.pi) ^ ((1 : ℝ) / 3)) 3, ← Real.rpow_mul hx]
      norm_num
    rw [div_pow, h3]
    field_simp
    ring

/-- Claim C6 witness at unit data and cell measure π (so h = 2 in 2D). -/
theorem C6_tau_formula_witness :
    tauAssemble 1 (hElem2d Real.pi) 1 = tauClaimed 1 (hElem2d Real.pi) 1 ∧
    Real.pi * (hElem2d Real.pi / 2) ^ 2 = Real.pi ∧
    Real.pi * (4 / 3) * (hElem3d Real.pi / 2) ^ 3 = Real.pi :=
  C6_tau_formula 1 1 Real.pi Real.pi Real.pi_pos.le Real.pi_pos.le

/-- Claim C7 (amended).  In the gls prototype a dof at distance 0 takes the
no-division branch: the diagonal is rewritten to the pre-override value α,
the cleared off-diagonal entries stay 0, and the rhs is α·g_k(x_i) on the
initial couette step and 0 on non-initial steps.  (The direct prototype has
no d = 0 guard and divides by d² = 0 unconditionally; see the
counterexample.) -/
theorem C7_zero_distance (ctx : IBCtx) (initial : Bool) (cell : Cell)
    (k l : ℕ) (s : LinSys) (hd : glsD ctx cell l = 0) :
    (glsRewriteDof ctx initial cell k l s).mat (dofAt cell l) (dofAt cell l)
        = s.mat (dofAt cell l) (dofAt cell l) ∧
    (ctx.couette = true → initial = true →
      (glsRewriteDof ctx initial cell k l s).rhs (dofAt cell l)
        = glsG ctx cell l k * s.mat (dofAt cell l) (dofAt cell l)) ∧
    (initial = false →
      (glsRewriteDof ctx initial cell k l s).rhs (dofAt cell l) = 0) ∧
    (∀ b, b ≠ dofAt cell l →
      (∃ c ∈ glsNeigh ctx cell l,
        ∃ o ∈ List.range (glsC2 ctx cell l).dofs.length, b = c.dofs.getD o 0) →
      (glsRewriteDof ctx initial cell k l s).mat (dofAt cell l) b = 0) := by
  refine ⟨glsRewrite_diag_d0 ctx initial cell k l s hd, fun hc hi => ?_, fun hi => ?_,
    fun b hb hhit => glsRewrite_row_d0 ctx initial cell k l s hd b hb hhit⟩
  · subst hi
    rw [glsRewriteDof_rhs_i]
    simp [hc]
  · subst hi
    rw [glsRewriteDof_rhs_i]
    simp

set_option maxRecDepth 10000 in
/-- Claim C7 witness: the gls rewrite of a dof lying exactly on the circle
(radius 3, support point (3,0)) keeps the diagonal α and sets the couette
Dirichlet rhs α·g_k(x_i). -/
theorem C7_zero_distance_witness :
    glsD ctxZ cellA 1 = 0 ∧
    (glsRewriteDof ctxZ true cellA 1 1 s0).mat (dofAt cellA 1) (dofAt cellA 1)
        = s0.mat (dofAt cellA 1) (dofAt cellA 1) ∧
    (glsRewriteDof ctxZ true cellA 1 1 s0).rhs (dofAt cellA 1)
        = glsG ctxZ cellA 1 1 * s0.mat (dofAt cellA 1) (dofAt cellA 1) :=
  ⟨by decide,
   (C7_zero_distance ctxZ true cellA 1 1 s0 (by decide)).1,
   (C7_zero_distance ctxZ true cellA 1 1 s0 (by decide)).2.1 (by decide) rfl⟩

set_option maxRecDepth 10000 in
/-- Claim C7 counterexample: the direct prototype's rewrite of a dof lying
exactly on the circle (dist = 0) does not produce the plain Dirichlet fix
J_ii = α: it divides -2 by dist² (IEEE: an infinite entry; in the exact
model the quotient by zero), and the result differs from the pre-override
diagonal α = 1. -/
theorem C7_cex :
    directDist dctx (dctx.support (dofAt cellA 1)) = 0 ∧
    (directRewriteDof dctx cellA 1 1 s0).mat 1 1 ≠ s0.mat 1 1 := by
  decide

/-- Claim C8.  newton_iteration always terminates: the loop body increments
outer_iteration every pass and the guard bounds it by max_iteration, so the
final count is at most max_iteration; on exit either the cap was reached or
first_step is cleared and current_res ≤ tolerance (the only two exit
conditions of the while guard). -/
theorem C8_newton_loop (ctx : NCtx) (tol : ℚ) (maxIt : ℕ) (isInitial : Bool)
    (sol0 : ℕ → ℚ) :
    (newtonIteration ctx tol maxIt isInitial sol0).outer ≤ maxIt ∧
    ((newtonIteration ctx tol maxIt isInitial sol0).first = false ∧
        (newtonIteration ctx tol maxIt isInitial sol0).res ≤ tol
      ∨ (newtonIteration ctx tol maxIt isInitial sol0).outer = maxIt) :=
  newtonLoop_bound ctx tol maxIt maxIt _ (by simp)

/-- Claim C9 (amended).  The traction integrator's sampling step is
dr = 2·(h_min²/√(2·h_min²)) = √2·h_min: the source computes h_min/√2 and then
doubles it, so the step is twice the claimed h_min/√2. -/
theorem C9_sampling_step (m : ℝ) (hm : 0 < m) : drTorque m = Real.sqrt 2 * m := by
  have h1 : Real.sqrt (2 * (m * m)) = Real.sqrt 2 * m := by
    rw [Real.sqrt_mul (by norm_num : (0 : ℝ) ≤ 2), Real.sqrt_mul_self hm.le]
  have h2 : Real.sqrt 2 ≠ 0 := by positivity
  unfold drTorque drTorqueBase
  rw [h1]
  rw [div_mul_eq_mul_div, div_eq_iff (by positivity)]
  nlinarith [Real.sq_sqrt (show (0 : ℝ) ≤ 2 by norm_num)]

/-- Claim C9 witness: at h_min = 1 the step is √2. -/
theorem C9_sampling_step_witness : drTorque 1 = Real.sqrt 2 * 1 :=
  C9_sampling_step 1 one_pos

/-- Claim C9 counterexample: at h_min = 1 the computed step is √2, not the
claimed h_min/√2 = 1/√2. -/
theorem C9_cex : drTorque 1 ≠ 1 / Real.sqrt 2 := by
  intro h
  have h2 : (0 : ℝ) < Real.sqrt 2 := Real.sqrt_pos.mpr (by norm_num)
  have hs : Real.sqrt 2 * Real.sqrt 2 = 2 := Real.mul_self_sqrt (by norm_num)
  unfold drTorque drTorqueBase at h
  rw [show (2 : ℝ) * ((1 : ℝ) * 1) = 2 by norm_num, show ((1 : ℝ) * 1) = 1 by norm_num] at h
  rw [div_mul_eq_mul_div, div_eq_div_iff h2.ne' h2.ne'] at h
  nlinarith

/-- Claim C10.  assemble(initial_step, false) never touches the system
matrix: the matrix-zeroing and the matrix scatter are both guarded by
assemble_matrix, and the rhs-only distribute writes only the right-hand
side, for every constraint resolution and every iterate. -/
theorem C10_assemble_rhs_frame (ctx : ACtx) (initial : Bool) (s : LinSys) :
    (assembleM ctx initial false s).mat = s.mat := by
  unfold assembleM
  have H : ∀ (L : List Cell) (t : LinSys),
      (L.foldl (fun t c =>
        let used := if initial then ctx.resolveN else ctx.resolveZ
        if (false : Bool) then scatterBoth used c (ctx.localMat c) (ctx.localRhs c) t
        else scatterRhs used c (ctx.localRhs c) t) t).mat = t.mat := by
    intro L
    induction L with
    | nil => intro t; rfl
    | cons c L ih =>
      intro t
      rw [List.foldl_cons, ih]
      simp only [Bool.false_eq_true, if_false]
      rw [scatterRhs_mat]
  simp only [Bool.false_eq_true, if_false]
  exact H ctx.cells _

end SharpIB
